import Mathlib

/-!
# Verification of the opc-xml-da-cli browse/transport/datetime core

Shallow embedding of the Go sources:
* `internal/cli/browse.go`   — paginated, cycle-safe namespace traversal
* `internal/cli/net_debug.go` — body capture, header redaction
* `service/xsd_datetime.go`  — lenient XSD datetime parsing

Go strings are byte sequences; we model them as `List Nat` (byte values),
so Go's bytewise string comparison, concatenation and the NUL byte used in
`makeBrowseKey` are all directly expressible.
-/

/-- A Go string, modelled as its byte sequence. -/
abbrev GoStr := List Nat

/-- Encode an ASCII Lean string literal as a Go byte string. -/
def gostr (s : String) : GoStr := s.data.map Char.toNat

/-- Go's `<` on strings: bytewise lexicographic comparison
(`internal/cli/browse.go`, the `sort.Slice` less function). -/
def goStrLt : GoStr → GoStr → Bool
  | [], [] => false
  | [], _ :: _ => true
  | _ :: _, [] => false
  | a :: as, b :: bs => if a < b then true else if b < a then false else goStrLt as bs

/-- `makeBrowseKey` (`internal/cli/browse.go`):
`itemPath + "\x00" + itemName`, the VisitedSet key. -/
def makeBrowseKey (itemPath itemName : GoStr) : GoStr := itemPath ++ 0 :: itemName

/-- The fields of the generated `xmlda.BrowseElement` used by the browse
code: display name, item path, item name, has-children flag.  Elements of
a decoded response are modelled as values (the Go code holds non-nil
pointers; XML decoding never produces nil entries). -/
structure BrowseElement where
  name : GoStr
  itemPath : GoStr
  itemName : GoStr
  hasChildren : Bool
deriving DecidableEq, Repr

/-- `browseElementName` (`internal/cli/browse.go`): label fallback chain
Name, then ItemName, then ItemPath, then a literal placeholder. -/
def browseElementName (el : BrowseElement) : GoStr :=
  if el.name ≠ [] then el.name
  else if el.itemName ≠ [] then el.itemName
  else if el.itemPath ≠ [] then el.itemPath
  else gostr "<unnamed>"

/-- One output line of the browse tree: indent, label, and a trailing `/`
marker when the element has children (the `fmt.Fprintf` in
`browseOpcChildren`). -/
def browseLine (indent : GoStr) (el : BrowseElement) : GoStr :=
  indent ++ browseElementName el ++ (if el.hasChildren then gostr "/" else [])

/-- The generated `xmlda.OPCError`: optional ID (a nil-able pointer) and
error text. -/
structure OPCError where
  id : Option GoStr
  text : GoStr
deriving DecidableEq, Repr

/-- `strings.Join` with a separator. -/
def goJoin (sep : GoStr) : List GoStr → GoStr
  | [] => []
  | [x] => x
  | x :: y :: ys => x ++ sep ++ goJoin sep (y :: ys)

/-- The `parts` accumulation loop of `formatOPCErrors`: nil entries are
skipped; a non-empty ID renders as `id: text`; otherwise a non-empty text
renders alone; entries with neither are dropped. -/
def opcErrorParts : List (Option OPCError) → List GoStr
  | [] => []
  | none :: rest => opcErrorParts rest
  | some e :: rest =>
    match e.id with
    | some i =>
      if i ≠ [] then (i ++ gostr ": " ++ e.text) :: opcErrorParts rest
      else if e.text ≠ [] then e.text :: opcErrorParts rest
      else opcErrorParts rest
    | none =>
      if e.text ≠ [] then e.text :: opcErrorParts rest
      else opcErrorParts rest

/-- `formatOPCErrors` (`internal/cli/browse.go`). -/
def formatOPCErrors (opcErrors : List (Option OPCError)) : GoStr :=
  if opcErrors = [] then gostr "unknown error"
  else
    let parts := opcErrorParts opcErrors
    if parts = [] then gostr "unknown error"
    else goJoin (gostr "; ") parts

/-- Rendering of a single error entry as the spec describes it: id+text
form when a non-empty id is present, text alone when the text is
non-empty, nothing when the entry carries no message. -/
def specRenderOPCError : Option OPCError → Option GoStr
  | none => none
  | some e =>
    match e.id with
    | some i =>
      if i ≠ [] then some (i ++ gostr ": " ++ e.text)
      else if e.text ≠ [] then some e.text else none
    | none => if e.text ≠ [] then some e.text else none

/-- The aggregate error message as the spec describes it: join the
rendered entries with `"; "`, or the literal `"unknown error"` when no
entry carries any message. -/
def specFormatOPCErrors (opcErrors : List (Option OPCError)) : GoStr :=
  let parts := opcErrors.filterMap specRenderOPCError
  if parts = [] then gostr "unknown error" else goJoin (gostr "; ") parts

/-- The fields of the generated `xmlda.BrowseResponse` used by
`fetchBrowseElements`: elements, more-elements flag, continuation point,
server-reported errors (entries are nil-able pointers). -/
structure BrowseResponse where
  elements : List BrowseElement
  moreElements : Bool
  continuationPoint : GoStr
  errors : List (Option OPCError)
deriving DecidableEq, Repr

/-- The abstract SOAP service: one list-children RPC, indexed by item
path, item name and continuation token.  `Except.error` is a transport
failure (its payload the error text), `Except.ok none` a nil response. -/
def BrowseSvc := GoStr → GoStr → GoStr → Except GoStr (Option BrowseResponse)

/-- Modelled from the spec: the caller's cancellation/deadline signal,
recorded as the index of the page-fetch call before which it has fired
(`none` = it never fires).  The Go context and the generated
`BrowseContext` SOAP client that consults it are not part of the sources
under verification. -/
structure GoCtx where
  cancelFrom : Option Nat
deriving DecidableEq, Repr

/-- Whether the cancellation signal has fired before call number `i`. -/
def ctxFired (ctx : GoCtx) (i : Nat) : Bool :=
  match ctx.cancelFrom with
  | none => false
  | some k => k ≤ i

deriving instance DecidableEq for Except

/-- Result of `fetchBrowseElements`: the continuation tokens of the RPC
calls actually issued, and the outcome (`none` = the page loop did not
finish within the given fuel). -/
structure FetchOut where
  requests : List GoStr
  result : Option (Except GoStr (List BrowseElement))
deriving DecidableEq, Repr

/-- The page loop of `fetchBrowseElements` (`internal/cli/browse.go`).
Per iteration: if the cancellation signal has fired the call surfaces a
cancellation error without issuing an RPC (modelled from the spec, this
check lives in the generated SOAP client); otherwise the RPC is issued
and transport errors, nil responses and non-empty server error lists are
turned into immediate aggregate errors; otherwise the elements are
accumulated and the loop stops exactly when `MoreElements` is false or
the continuation point is empty. -/
def fetchLoop (svc : BrowseSvc) (ctx : GoCtx) (itemPath itemName : GoStr) :
    Nat → Nat → GoStr → List BrowseElement → FetchOut
  | 0, _, _, _ => ⟨[], none⟩
  | fuel + 1, i, continuation, acc =>
    if ctxFired ctx i then
      ⟨[], some (.error (gostr "browse: context canceled"))⟩
    else
      match svc itemPath itemName continuation with
      | .error e => ⟨[continuation], some (.error (gostr "browse: " ++ e))⟩
      | .ok none => ⟨[continuation], some (.error (gostr "browse: empty response"))⟩
      | .ok (some resp) =>
        if resp.errors ≠ [] then
          ⟨[continuation], some (.error (gostr "browse: " ++ formatOPCErrors resp.errors))⟩
        else
          let acc2 := acc ++ resp.elements
          if resp.moreElements = false ∨ resp.continuationPoint = [] then
            ⟨[continuation], some (.ok acc2)⟩
          else
            let out := fetchLoop svc ctx itemPath itemName fuel (i + 1) resp.continuationPoint acc2
            ⟨continuation :: out.requests, out.result⟩

/-- `fetchBrowseElements` (`internal/cli/browse.go`): run the page loop
from the empty continuation token with an empty accumulator. -/
def fetchBrowseElements (svc : BrowseSvc) (ctx : GoCtx)
    (itemPath itemName : GoStr) (fuel : Nat) : FetchOut :=
  fetchLoop svc ctx itemPath itemName fuel 0 [] []

/-- A well-formed page chain: starting from token `tok`, the service
answers each request with the next page, intermediate pages have
`moreElements` and a non-empty continuation point, and the last page
reports no-more or an empty token; no page carries errors. -/
def PageChainB (svc : BrowseSvc) (itemPath itemName : GoStr) :
    GoStr → List BrowseResponse → Bool
  | _, [] => false
  | tok, [r] =>
    decide (svc itemPath itemName tok = .ok (some r)) && decide (r.errors = []) &&
      (decide (r.moreElements = false) || decide (r.continuationPoint = []))
  | tok, r :: r2 :: rest =>
    decide (svc itemPath itemName tok = .ok (some r)) && decide (r.errors = []) &&
      decide (r.moreElements = true) && decide (r.continuationPoint ≠ []) &&
      PageChainB svc itemPath itemName r.continuationPoint (r2 :: rest)

/-- The continuation tokens a page chain makes the loop send. -/
def chainTokens : GoStr → List BrowseResponse → List GoStr
  | _, [] => []
  | tok, r :: rest => tok :: chainTokens r.continuationPoint rest

/-- The never-cancelled context (a background context with no deadline). -/
def ctx₀ : GoCtx := ⟨none⟩

/-- The less function the browse code hands to `sort.Slice`:
`browseElementName(elements[i]) < browseElementName(elements[j])`. -/
def browseLess (a b : BrowseElement) : Bool :=
  goStrLt (browseElementName a) (browseElementName b)

/-- The non-strict label comparison: `a` sorts no later than `b`. -/
def browseLe (a b : BrowseElement) : Bool := ! browseLess b a

/-- What Go guarantees about `sort.Slice(elements, less)`: the result is
a permutation of the input that is sorted for the given less function.
Stability is deliberately NOT part of this contract — `sort.Slice` is
documented as not guaranteed to be stable. -/
def GoSortSpec (sorter : List BrowseElement → List BrowseElement) : Prop :=
  ∀ l, (sorter l).Perm l ∧ List.Pairwise (fun a b => browseLe a b = true) (sorter l)

/-- Insert into a sorted list, before the first element it sorts no later
than (the classic stable insertion). -/
def goInsert (x : BrowseElement) : List BrowseElement → List BrowseElement
  | [] => [x]
  | y :: ys => if browseLe x y then x :: y :: ys else y :: goInsert x ys

/-- Stable insertion sort by label: a conforming implementation of the
`sort.Slice` contract that additionally keeps equal labels in arrival
order. -/
def goStableSort : List BrowseElement → List BrowseElement
  | [] => []
  | x :: xs => goInsert x (goStableSort xs)

/-- A different conforming implementation of the `sort.Slice` contract:
stable-sort the reversed input, so that equal labels come out in reversed
arrival order. -/
def goAntistableSort (l : List BrowseElement) : List BrowseElement :=
  goStableSort l.reverse

/-- The observable state of one `BrowseOpcTree` run: lines written to the
output writer, the VisitedSet keys (a Go `map[string]struct{}`, insertion
modelled as cons), and a ghost trace of the nodes whose children were
fetched (one entry per `fetchBrowseElements` call, used only to state
properties). -/
structure BrowseState where
  output : List GoStr
  visited : List GoStr
  expanded : List (GoStr × GoStr)
deriving DecidableEq, Repr

/-- The per-node child fetch, `fetchBrowseElements` seen as a function of
the node identity (the other arguments of the Go function are fixed per
traversal). -/
def FetchEls := GoStr → GoStr → Except GoStr (List BrowseElement)

/-- The element loop of `browseOpcChildren` (`internal/cli/browse.go`),
parameterised by the recursive expansion `descend` (one gas level lower):
print each element (indent, label, `/` marker), and when it has children
and `depth < maxDepth`, check-and-insert its key in the VisitedSet
strictly before descending; an already-visited key skips the descent
(`continue`); an error from a descent aborts immediately. -/
def browseElemsStep
    (descend : GoStr → GoStr → GoStr → Int → Int → BrowseState → BrowseState × Option GoStr)
    (elems : List BrowseElement) (indent : GoStr) (depth maxDepth : Int)
    (st : BrowseState) : BrowseState × Option GoStr :=
  match elems with
  | [] => (st, none)
  | el :: rest =>
    let st1 : BrowseState := { st with output := st.output ++ [browseLine indent el] }
    if el.hasChildren = true ∧ depth < maxDepth then
      let key := makeBrowseKey el.itemPath el.itemName
      if key ∈ st1.visited then browseElemsStep descend rest indent depth maxDepth st1
      else
        let st2 : BrowseState := { st1 with visited := key :: st1.visited }
        match descend el.itemPath el.itemName (indent ++ gostr "  ") (depth + 1) maxDepth st2 with
        | (st3, some e) => (st3, some e)
        | (st3, none) => browseElemsStep descend rest indent depth maxDepth st3
    else browseElemsStep descend rest indent depth maxDepth st1

/-- `browseOpcChildren` (`internal/cli/browse.go`): fetch the node's
children, sort them with `sort.Slice` (the `sorter` parameter, any
implementation of its contract) and run the element loop.  `gas` bounds
the recursion depth: the wrapper passes `(maxDepth - depth).toNat`, and
the `depth < maxDepth` guard keeps it ahead of every descent, so the
gas-exhausted no-descend branch is never taken on wrapper-reachable
states. -/
def browseOpcChildrenGo (fetchEls : FetchEls)
    (sorter : List BrowseElement → List BrowseElement) :
    Nat → GoStr → GoStr → GoStr → Int → Int → BrowseState → BrowseState × Option GoStr
  | gas, itemPath, itemName, indent, depth, maxDepth, st =>
    let st0 : BrowseState := { st with expanded := st.expanded ++ [(itemPath, itemName)] }
    match fetchEls itemPath itemName with
    | .error e => (st0, some e)
    | .ok elements =>
      let descend := match gas with
        | 0 => fun _ _ _ _ _ st2 => (st2, none)
        | gas' + 1 => browseOpcChildrenGo fetchEls sorter gas'
      browseElemsStep descend (sorter elements) indent depth maxDepth st0

/-- `BrowseOpcTree` (`internal/cli/browse.go`): print the root label
(ItemName, else ItemPath, else a literal root placeholder), stop if
`maxDepth <= 0`, seed the VisitedSet with the root identity, and expand
the root at depth 1. -/
def BrowseOpcTree (fetchEls : FetchEls)
    (sorter : List BrowseElement → List BrowseElement)
    (itemPath itemName : GoStr) (maxDepth : Int) : BrowseState × Option GoStr :=
  let rootLabel :=
    if itemName ≠ [] then itemName
    else if itemPath ≠ [] then itemPath
    else gostr "<root>"
  let st0 : BrowseState := ⟨[rootLabel], [], []⟩
  if maxDepth ≤ 0 then (st0, none)
  else
    browseOpcChildrenGo fetchEls sorter (maxDepth - 1).toNat itemPath itemName
      (gostr "  ") 1 maxDepth { st0 with visited := [makeBrowseKey itemPath itemName] }

/-- The per-node fetch induced by the paged `fetchBrowseElements` loop
over a SOAP service and a cancellation context. -/
def fetchElsOf (svc : BrowseSvc) (ctx : GoCtx) (fuel : Nat) : FetchEls :=
  fun itemPath itemName =>
    match (fetchBrowseElements svc ctx itemPath itemName fuel).result with
    | some r => r
    | none => .error (gostr "browse: page loop fuel exhausted")

/-- The whole traversal: `BrowseOpcTree` over the paged fetch. -/
def BrowseOpcTreeFull (svc : BrowseSvc) (ctx : GoCtx) (fuel : Nat)
    (sorter : List BrowseElement → List BrowseElement)
    (itemPath itemName : GoStr) (maxDepth : Int) : BrowseState × Option GoStr :=
  BrowseOpcTree (fetchElsOf svc ctx fuel) sorter itemPath itemName maxDepth

/-- The VisitedSet keys of a list of node identities. -/
def keysOf (l : List (GoStr × GoStr)) : List GoStr :=
  l.map fun pn => makeBrowseKey pn.1 pn.2

/-- Postcondition of expanding one node whose key is `key0`: the
VisitedSet only grows, and the newly recorded expansions have pairwise
distinct keys, all in the final VisitedSet, none previously visited
except the node's own key. -/
def NodePost (key0 : GoStr) (st : BrowseState) (r : BrowseState × Option GoStr) : Prop :=
  (∀ k ∈ st.visited, k ∈ r.1.visited) ∧
  ∃ Δ, r.1.expanded = st.expanded ++ Δ ∧ (keysOf Δ).Nodup ∧
    ∀ k ∈ keysOf Δ, k ∈ r.1.visited ∧ (k ∉ st.visited ∨ k = key0)

/-- Postcondition of the element loop: as `NodePost`, but every newly
recorded expansion has a key that was not visited when the loop started
(each was check-and-inserted strictly before its descent). -/
def ElemsPost (st : BrowseState) (r : BrowseState × Option GoStr) : Prop :=
  (∀ k ∈ st.visited, k ∈ r.1.visited) ∧
  ∃ Δ, r.1.expanded = st.expanded ++ Δ ∧ (keysOf Δ).Nodup ∧
    ∀ k ∈ keysOf Δ, k ∈ r.1.visited ∧ k ∉ st.visited

/-- A child element `B` of the demo root, itself expandable. -/
def elB : BrowseElement := ⟨gostr "B", [], gostr "B", true⟩

/-- A leaf child `C` of node `B`. -/
def elC : BrowseElement := ⟨gostr "C", [], gostr "C", false⟩

/-- A child of `B` whose identity equals the root `R`: a namespace cycle. -/
def elR2 : BrowseElement := ⟨gostr "R", [], gostr "R", true⟩

/-- A cyclic namespace: `R` has child `B`; `B` has children `R` (a back
edge) and `C`. -/
def cycFetch : FetchEls := fun _ itemName =>
  if itemName = gostr "R" then .ok [elB]
  else if itemName = gostr "B" then .ok [elR2, elC]
  else .ok []

/-- Elements spread over the three pages of the C2 witness service. -/
def el1 : BrowseElement := ⟨gostr "e1", [], gostr "e1", false⟩

def el2 : BrowseElement := ⟨gostr "e2", [], gostr "e2", false⟩

def el3 : BrowseElement := ⟨gostr "e3", [], gostr "e3", false⟩

def el4 : BrowseElement := ⟨gostr "e4", [], gostr "e4", false⟩

/-- First page: two elements, more to come, token `t1`. -/
def page1 : BrowseResponse := ⟨[el1, el2], true, gostr "t1", []⟩

/-- Second page: one element, more to come, token `t2`. -/
def page2 : BrowseResponse := ⟨[el3], true, gostr "t2", []⟩

/-- Last page: one element, no more, empty token. -/
def page3 : BrowseResponse := ⟨[el4], false, [], []⟩

/-- A service serving the three-page listing `page1`, `page2`, `page3`. -/
def pagedSvc : BrowseSvc := fun _ _ tok =>
  if tok = [] then .ok (some page1)
  else if tok = gostr "t1" then .ok (some page2)
  else if tok = gostr "t2" then .ok (some page3)
  else .error (gostr "no such page")

/-- The error list of the C4 witness: one id+text entry, one nil entry,
one entry with no message at all. -/
def errList : List (Option OPCError) :=
  [some ⟨some (gostr "E1"), gostr "boom"⟩, none, some ⟨none, []⟩]

/-- A service whose first page reports the `errList` server errors. -/
def errSvc : BrowseSvc := fun _ _ _ => .ok (some ⟨[], false, [], errList⟩)

/-- The already-cancelled context: the signal has fired before the first
page fetch. -/
def ctxCancelled : GoCtx := ⟨some 0⟩

/-- Elements with equal labels but distinguishable lines: `elX1` is a
leaf, `elX2` expandable, both labelled `x`; `elX1` arrives first. -/
def elX1 : BrowseElement := ⟨gostr "x", [], gostr "x1", false⟩

/-- See `elX1`. -/
def elX2 : BrowseElement := ⟨gostr "x", [], gostr "x2", true⟩

/-- A service whose root listing is `[elX1, elX2]` (equal labels, in that
arrival order). -/
def tieFetch : FetchEls := fun _ _ => .ok [elX1, elX2]

/-- `MaxDebugBodyBytes` (`internal/cli/net_debug.go`): the capture
budget, 64 KiB. -/
def MaxDebugBodyBytes : Int := 64 * 1024

/-- The mutable state of the `loggedBody` response wrapper: the capture
budget, the captured preview buffer, the truncated flag and the
bytes-read counter. -/
structure LoggedBody where
  maxBodyBytes : Int
  buf : GoStr
  truncated : Bool
  readBytes : Int
deriving DecidableEq, Repr

/-- `loggedBody.Read` (`internal/cli/net_debug.go`), one underlying read
that returned the bytes `chunk`: count them, and append to the capture
buffer only what fits in the remaining budget, setting the truncated
flag once bytes stop fitting. -/
def loggedBodyRead (lb : LoggedBody) (chunk : GoStr) : LoggedBody :=
  let n := chunk.length
  if 0 < n then
    let lb1 : LoggedBody := { lb with readBytes := lb.readBytes + n }
    let remaining : Int := lb1.maxBodyBytes - lb1.buf.length
    if 0 < remaining then
      if (n : Int) > remaining then
        { lb1 with buf := lb1.buf ++ chunk.take remaining.toNat, truncated := true }
      else
        { lb1 with buf := lb1.buf ++ chunk }
    else
      { lb1 with truncated := true }
  else lb

/-- A fresh `loggedBody` with the given capture budget. -/
def loggedBodyInit (limit : Int) : LoggedBody := ⟨limit, [], false, 0⟩

/-- A whole sequence of reads against the wrapper. -/
def loggedBodyReadAll (lb : LoggedBody) (chunks : List GoStr) : LoggedBody :=
  chunks.foldl loggedBodyRead lb

/-- `bodyPreview` (`internal/cli/net_debug.go`): the request-side preview
of a fully buffered body. -/
def bodyPreview (body : GoStr) (limit : Int) : GoStr × Bool :=
  if limit ≤ 0 then ([], decide (0 < body.length))
  else if (body.length : Int) ≤ limit then (body, false)
  else (body.take limit.toNat, true)

/-- ASCII lower-casing of one byte. -/
def goToLowerByte (c : Nat) : Nat := if 65 ≤ c ∧ c ≤ 90 then c + 32 else c

/-- ASCII lower-casing of a byte string (the spec's case-insensitive
comparison). -/
def goToLower (s : GoStr) : GoStr := s.map goToLowerByte

/-- `validHeaderFieldByte` (`net/textproto`): the HTTP token bytes —
digits, letters, and the specials of the token table. -/
def validHeaderFieldByte (c : Nat) : Bool :=
  decide (48 ≤ c ∧ c ≤ 57) || decide (65 ≤ c ∧ c ≤ 90) || decide (97 ≤ c ∧ c ≤ 122) ||
  decide (c = 33) || decide (c = 35) || decide (c = 36) || decide (c = 37) ||
  decide (c = 38) || decide (c = 39) || decide (c = 42) || decide (c = 43) ||
  decide (c = 45) || decide (c = 46) || decide (c = 94) || decide (c = 95) ||
  decide (c = 96) || decide (c = 124) || decide (c = 126)

/-- One byte of the casing pass of `canonicalMIMEHeaderKey`: at an
upper-case position a lower-case letter is upper-cased, elsewhere an
upper-case letter is lower-cased; everything else is untouched. -/
def canonByte : Bool → Nat → Nat
  | true, c => if 97 ≤ c ∧ c ≤ 122 then c - 32 else c
  | false, c => if 65 ≤ c ∧ c ≤ 90 then c + 32 else c

/-- The casing pass of `canonicalMIMEHeaderKey`: the first byte and each
byte following a hyphen are at upper-case positions. -/
def canonicalCase (upper : Bool) : GoStr → GoStr
  | [] => []
  | c :: rest =>
    let c2 := canonByte upper c
    c2 :: canonicalCase (decide (c2 = 45)) rest

/-- `textproto.CanonicalMIMEHeaderKey` (what `http.CanonicalHeaderKey`
calls): a key with any non-token byte is returned unchanged, otherwise
it is re-cased canonically. -/
def canonicalMIMEHeaderKey (s : GoStr) : GoStr :=
  if s.all validHeaderFieldByte then canonicalCase true s else s

/-- `isSensitiveHeader` (`internal/cli/net_debug.go`): the canonical key
is one of the four sensitive header names. -/
def isSensitiveHeader (key : GoStr) : Bool :=
  decide (canonicalMIMEHeaderKey key = gostr "Authorization") ||
  decide (canonicalMIMEHeaderKey key = gostr "Proxy-Authorization") ||
  decide (canonicalMIMEHeaderKey key = gostr "Cookie") ||
  decide (canonicalMIMEHeaderKey key = gostr "Set-Cookie")

/-- `redactHeaders` (`internal/cli/net_debug.go`): sensitive headers get
the single literal `<redacted>` value, all others keep their value
list verbatim. -/
def redactHeaders : List (GoStr × List GoStr) → List (GoStr × List GoStr)
  | [] => []
  | (key, values) :: rest =>
    if isSensitiveHeader key then (key, [gostr "<redacted>"]) :: redactHeaders rest
    else (key, values) :: redactHeaders rest

/-- Lower-case letters and the hyphen: the alphabet of the four
sensitive header names. -/
def lowerAlphaHyphen (c : Nat) : Bool := decide (97 ≤ c ∧ c ≤ 122) || decide (c = 45)

/-- A Go `time.Time` instant, as nanoseconds since the zero time
0001-01-01T00:00:00 UTC (the location is irrelevant to the behaviour the
browse code observes: equality of instants and `IsZero`). -/
abbrev GoTime := Int

/-- The decimal value of an ASCII digit byte. -/
def digitVal : Nat → Option Nat
  | c => if 48 ≤ c ∧ c ≤ 57 then some (c - 48) else none

/-- Two-digit decimal field. -/
def field2 (a b : Nat) : Option Nat := do
  let x ← digitVal a
  let y ← digitVal b
  pure (x * 10 + y)

/-- Four-digit decimal field. -/
def field4 (a b c d : Nat) : Option Nat := do
  let x ← field2 a b
  let y ← field2 c d
  pure (x * 100 + y)

/-- Proleptic Gregorian leap year, as `time.Date` computes it. -/
def isLeapYear (y : Nat) : Bool := y % 4 = 0 ∧ (y % 100 ≠ 0 ∨ y % 400 = 0)

/-- Days in the given month. -/
def daysInMonth (leap : Bool) : Nat → Nat
  | 1 => 31
  | 2 => if leap then 29 else 28
  | 3 => 31
  | 4 => 30
  | 5 => 31
  | 6 => 30
  | 7 => 31
  | 8 => 31
  | 9 => 30
  | 10 => 31
  | 11 => 30
  | 12 => 31
  | _ => 0

/-- Days before the given month in a year. -/
def daysBeforeMonth (leap : Bool) : Nat → Nat
  | 1 => 0
  | 2 => 31
  | 3 => if leap then 60 else 59
  | 4 => if leap then 91 else 90
  | 5 => if leap then 121 else 120
  | 6 => if leap then 152 else 151
  | 7 => if leap then 182 else 181
  | 8 => if leap then 213 else 212
  | 9 => if leap then 244 else 243
  | 10 => if leap then 274 else 273
  | 11 => if leap then 305 else 304
  | 12 => if leap then 335 else 334
  | _ => 0

/-- Days from 0001-01-01 to the given proleptic Gregorian date. -/
def daysFromYearOne (y mo d : Nat) : Int :=
  365 * ((y : Int) - 1) + ((y : Int) - 1).fdiv 4 - ((y : Int) - 1).fdiv 100 +
    ((y : Int) - 1).fdiv 400 + daysBeforeMonth (isLeapYear y) mo + ((d : Int) - 1)

/-- Split off the maximal run of leading ASCII digits. -/
def takeDigits : GoStr → List Nat × GoStr
  | [] => ([], [])
  | c :: rest =>
    if 48 ≤ c ∧ c ≤ 57 then
      let p := takeDigits rest
      ((c - 48) :: p.1, p.2)
    else ([], c :: rest)

/-- The optional fractional-second part of the RFC3339Nano layout:
nothing, or a dot followed by one to nine digits, valued in
nanoseconds. -/
def parseFrac : GoStr → Option (Nat × GoStr)
  | 46 :: rest =>
    let p := takeDigits rest
    if 1 ≤ p.1.length ∧ p.1.length ≤ 9 then
      some ((p.1.foldl (fun acc d => acc * 10 + d) 0) * 10 ^ (9 - p.1.length), p.2)
    else none
  | rest => some (0, rest)

/-- The zone designator of the RFC3339 layout: `Z`, or a sign and an
`hh:mm` offset, valued in seconds east of UTC. -/
def parseZoneOffset : GoStr → Option Int
  | [90] => some 0
  | [sign, h1, h2, 58, m1, m2] => do
    let hh ← field2 h1 h2
    let mm ← field2 m1 m2
    if hh ≤ 23 ∧ mm ≤ 59 then
      if sign = 43 then pure (hh * 3600 + mm * 60)
      else if sign = 45 then pure (-((hh : Int) * 3600 + mm * 60))
      else none
    else none
  | _ => none

/-- Go `time.Parse` with the `time.RFC3339Nano` layout, modelled on
instants: `yyyy-mm-ddThh:mm:ss[.fff...](Z|±hh:mm)` with range-checked
fields, valued as nanoseconds since the zero time. -/
def timeParseRFC3339Nano (s : GoStr) : Option GoTime :=
  match s with
  | y1 :: y2 :: y3 :: y4 :: 45 :: mo1 :: mo2 :: 45 :: d1 :: d2 :: 84 ::
      h1 :: h2 :: 58 :: mi1 :: mi2 :: 58 :: s1 :: s2 :: rest => do
    let y ← field4 y1 y2 y3 y4
    let mo ← field2 mo1 mo2
    let dy ← field2 d1 d2
    let hh ← field2 h1 h2
    let mi ← field2 mi1 mi2
    let ss ← field2 s1 s2
    let fz ← parseFrac rest
    let off ← parseZoneOffset fz.2
    if 1 ≤ mo ∧ mo ≤ 12 ∧ 1 ≤ dy ∧ dy ≤ daysInMonth (isLeapYear y) mo ∧
        hh ≤ 23 ∧ mi ≤ 59 ∧ ss ≤ 59 then
      pure ((daysFromYearOne y mo dy * 86400 + hh * 3600 + mi * 60 + ss - off) * 1000000000
        + fz.1)
    else none
  | _ => none

/-- The part of a string after its first `T`, if any (the time segment
`strings.SplitN(value, "T", 2)[1]`). -/
def splitFirstT : GoStr → Option (GoStr × GoStr)
  | [] => none
  | c :: rest =>
    if c = 84 then some ([], rest)
    else (splitFirstT rest).map fun p => (c :: p.1, p.2)

/-- The time segment of a date/time text (empty when there is no `T`). -/
def timeSegOf (value : GoStr) : GoStr := (((splitFirstT value).map Prod.snd).getD [])

/-- `parseXsdDateTime` (`service/xsd_datetime.go`): empty input is the
zero value with an explicit zone; a text with a `T` takes its zone from
the time segment (a `Z`, `+` or `-` there), gets a `Z` appended when no
zone is explicit, and the zero-date sentinel collapses to the zero value;
a text without `T` treats a `Z` or a colon as zone evidence; everything
else goes through `time.Parse` with the RFC3339Nano layout. -/
def parseXsdDateTime (value : GoStr) : Except GoStr (GoTime × Bool) :=
  if value = [] then .ok (0, true)
  else if 84 ∈ value then
    let hasTz := decide (90 ∈ timeSegOf value) || decide (43 ∈ timeSegOf value) ||
      decide (45 ∈ timeSegOf value)
    let value2 := if hasTz then value else value ++ [90]
    if value2 = gostr "0001-01-01T00:00:00Z" then .ok (0, true)
    else
      match timeParseRFC3339Nano value2 with
      | some t => .ok (t, hasTz)
      | none => .error value2
  else
    let hasTz := decide (90 ∈ value) || decide (58 ∈ value)
    let value2 := if hasTz then value else value ++ [90]
    match timeParseRFC3339Nano value2 with
    | some t => .ok (t, hasTz)
    | none => .error value2

theorem goStrLt_cons_iff (a b : Nat) (as bs : GoStr) :
    goStrLt (a :: as) (b :: bs) = true ↔ a < b ∨ (a = b ∧ goStrLt as bs = true) := by
  simp only [goStrLt]
  split_ifs with h1 h2
  · simp [h1]
  · simp
    omega
  · constructor
    · intro h
      right
      exact ⟨by omega, h⟩
    · intro h
      rcases h with h | h
      · omega
      · exact h.2

theorem goStrLt_asymm : ∀ s t : GoStr, goStrLt s t = true → goStrLt t s = false := by
  intro s
  induction s with
  | nil => intro t h; cases t <;> simp [goStrLt] at h ⊢
  | cons a as ih =>
    intro t h
    cases t with
    | nil => simp [goStrLt] at h
    | cons b bs =>
      rw [goStrLt_cons_iff] at h
      rcases h with h | ⟨he, h⟩
      · rw [Bool.eq_false_iff]
        intro hc
        rw [goStrLt_cons_iff] at hc
        rcases hc with hc | ⟨hce, _⟩ <;> omega
      · rw [Bool.eq_false_iff]
        intro hc
        rw [goStrLt_cons_iff] at hc
        rcases hc with hc | ⟨_, hc⟩
        · omega
        · have := ih bs h
          rw [hc] at this
          simp at this

theorem goStrLt_total : ∀ s t : GoStr, goStrLt s t = true ∨ goStrLt t s = true ∨ s = t := by
  intro s
  induction s with
  | nil => intro t; cases t <;> simp [goStrLt]
  | cons a as ih =>
    intro t
    cases t with
    | nil => simp [goStrLt]
    | cons b bs =>
      rcases Nat.lt_trichotomy a b with hab | hab | hab
      · left; rw [goStrLt_cons_iff]; exact Or.inl hab
      · subst hab
        rcases ih bs with h | h | h
        · left; rw [goStrLt_cons_iff]; exact Or.inr ⟨rfl, h⟩
        · right; left; rw [goStrLt_cons_iff]; exact Or.inr ⟨rfl, h⟩
        · right; right; rw [h]
      · right; left; rw [goStrLt_cons_iff]; exact Or.inl hab

theorem goStrLt_trans : ∀ s t u : GoStr,
    goStrLt s t = true → goStrLt t u = true → goStrLt s u = true := by
  intro s
  induction s with
  | nil =>
    intro t u h1 h2
    cases t with
    | nil => simp [goStrLt] at h1
    | cons b bs => cases u with
      | nil => simp [goStrLt] at h2
      | cons c cs => simp [goStrLt]
  | cons a as ih =>
    intro t u h1 h2
    cases t with
    | nil => simp [goStrLt] at h1
    | cons b bs =>
      cases u with
      | nil => simp [goStrLt] at h2
      | cons c cs =>
        rw [goStrLt_cons_iff] at h1 h2 ⊢
        rcases h1 with h1 | ⟨h1e, h1r⟩ <;> rcases h2 with h2 | ⟨h2e, h2r⟩
        · exact Or.inl (by omega)
        · exact Or.inl (by omega)
        · exact Or.inl (by omega)
        · exact Or.inr ⟨by omega, by subst h1e; exact ih bs cs h1r h2r⟩

/-- Keys built from NUL-free paths split back uniquely: if neither path
contains the byte 0, equal keys force equal components. -/
theorem makeBrowseKey_inj (p1 n1 p2 n2 : GoStr)
    (h1 : (0 : Nat) ∉ p1) (h2 : (0 : Nat) ∉ p2)
    (h : makeBrowseKey p1 n1 = makeBrowseKey p2 n2) : p1 = p2 ∧ n1 = n2 := by
  unfold makeBrowseKey at h
  induction p1 generalizing p2 with
  | nil =>
    cases p2 with
    | nil => simpa using h
    | cons b bs =>
      simp only [List.nil_append, List.cons_append, List.cons.injEq] at h
      exact absurd (h.1 ▸ List.mem_cons_self _ _) h2
  | cons a as ih =>
    cases p2 with
    | nil =>
      simp only [List.nil_append, List.cons_append, List.cons.injEq] at h
      exact absurd (h.1.symm ▸ List.mem_cons_self _ _) h1
    | cons b bs =>
      simp only [List.cons_append, List.cons.injEq] at h
      have h1' : (0 : Nat) ∉ as := fun hm => h1 (List.mem_cons_of_mem _ hm)
      have h2' : (0 : Nat) ∉ bs := fun hm => h2 (List.mem_cons_of_mem _ hm)
      have := ih bs h1' h2' h.2
      exact ⟨by rw [h.1, this.1], this.2⟩

theorem opcErrorParts_eq_filterMap (errs : List (Option OPCError)) :
    opcErrorParts errs = errs.filterMap specRenderOPCError := by
  induction errs with
  | nil => rfl
  | cons e rest ih =>
    cases e with
    | none => simpa [opcErrorParts, specRenderOPCError] using ih
    | some e =>
      cases he : e.id with
      | none =>
        by_cases ht : e.text ≠ [] <;>
          simp [opcErrorParts, specRenderOPCError, he, ht, ih, List.filterMap_cons]
      | some i =>
        by_cases hi : i ≠ []
        · simp [opcErrorParts, specRenderOPCError, he, hi, ih, List.filterMap_cons]
        · by_cases ht : e.text ≠ [] <;>
            simp [opcErrorParts, specRenderOPCError, he, hi, ht, ih, List.filterMap_cons]

theorem formatOPCErrors_eq_spec (errs : List (Option OPCError)) :
    formatOPCErrors errs = specFormatOPCErrors errs := by
  cases errs with
  | nil => rfl
  | cons e rest =>
    simp only [formatOPCErrors, specFormatOPCErrors, opcErrorParts_eq_filterMap]
    split_ifs with h1 <;> simp_all

theorem ctxFired_ctx₀ (i : Nat) : ctxFired ctx₀ i = false := rfl

theorem fetchLoop_chain (svc : BrowseSvc) (itemPath itemName : GoStr)
    (pages : List BrowseResponse) :
    ∀ fuel i tok acc, PageChainB svc itemPath itemName tok pages = true →
      pages.length ≤ fuel →
      fetchLoop svc ctx₀ itemPath itemName fuel i tok acc =
        ⟨chainTokens tok pages, some (.ok (acc ++ (pages.map BrowseResponse.elements).flatten))⟩ := by
  induction pages with
  | nil => intro fuel i tok acc hchain _; simp [PageChainB] at hchain
  | cons r rest ih =>
    intro fuel i tok acc hchain hfuel
    cases fuel with
    | zero => simp at hfuel
    | succ f =>
      cases rest with
      | nil =>
        simp only [PageChainB, Bool.and_eq_true, Bool.or_eq_true, decide_eq_true_eq] at hchain
        obtain ⟨⟨hsvc, herr⟩, hstop⟩ := hchain
        have hstop' : (r.moreElements = false ∨ r.continuationPoint = []) := by
          rcases hstop with h | h
          · exact Or.inl h
          · exact Or.inr h
        simp only [fetchLoop, ctxFired_ctx₀, hsvc, herr]
        simp [hstop', chainTokens]
      | cons r2 rest2 =>
        simp only [PageChainB, Bool.and_eq_true, decide_eq_true_eq] at hchain
        obtain ⟨⟨⟨⟨hsvc, herr⟩, hmore⟩, hcp⟩, hchain2⟩ := hchain
        have hchain2' : PageChainB svc itemPath itemName r.continuationPoint (r2 :: rest2) = true := hchain2
        have hfuel' : (r2 :: rest2).length ≤ f := by
          simp at hfuel ⊢
          omega
        have hrec := ih f (i + 1) r.continuationPoint (acc ++ r.elements) hchain2' hfuel'
        have hnostop : ¬ (r.moreElements = false ∨ r.continuationPoint = []) := by
          rintro (h | h)
          · rw [hmore] at h; cases h
          · exact hcp h
        simp only [fetchLoop, ctxFired_ctx₀, hsvc, herr]
        simp only [ne_eq, not_true_eq_false, if_false, hnostop]
        simp [hrec, chainTokens]

theorem browseLe_total (a b : BrowseElement) : browseLe a b = true ∨ browseLe b a = true := by
  unfold browseLe browseLess
  rcases goStrLt_total (browseElementName a) (browseElementName b) with h | h | h
  · left
    rw [goStrLt_asymm _ _ h]
    rfl
  · right
    rw [goStrLt_asymm _ _ h]
    rfl
  · left
    rw [h]
    cases hc : goStrLt (browseElementName b) (browseElementName b) with
    | false => rfl
    | true => rw [goStrLt_asymm _ _ hc] at hc; cases hc

theorem browseLe_trans (a b c : BrowseElement)
    (h1 : browseLe a b = true) (h2 : browseLe b c = true) : browseLe a c = true := by
  unfold browseLe browseLess at h1 h2 ⊢
  rw [Bool.not_eq_true'] at h1 h2 ⊢
  cases hca : goStrLt (browseElementName c) (browseElementName a) with
  | false => rfl
  | true =>
    exfalso
    rcases goStrLt_total (browseElementName a) (browseElementName b) with h | h | h
    · rcases goStrLt_total (browseElementName b) (browseElementName c) with g | g | g
      · have := goStrLt_trans _ _ _ (goStrLt_trans _ _ _ h g) hca
        rw [goStrLt_asymm _ _ this] at this
        cases this
      · rw [g] at h2; cases h2
      · rw [g] at h
        have := goStrLt_trans _ _ _ h hca
        rw [goStrLt_asymm _ _ this] at this
        cases this
    · rw [h] at h1; cases h1
    · rw [h] at hca
      rw [h2] at hca
      cases hca

theorem goInsert_perm (x : BrowseElement) (l : List BrowseElement) :
    (goInsert x l).Perm (x :: l) := by
  induction l with
  | nil => simp [goInsert]
  | cons y ys ih =>
    unfold goInsert
    split_ifs
    · exact List.Perm.refl _
    · exact ((ih.cons y).trans (List.Perm.swap x y ys)).symm.symm

theorem goStableSort_perm (l : List BrowseElement) : (goStableSort l).Perm l := by
  induction l with
  | nil => simp [goStableSort]
  | cons x xs ih =>
    exact (goInsert_perm x (goStableSort xs)).trans (ih.cons x)

theorem goInsert_pairwise (x : BrowseElement) (l : List BrowseElement)
    (h : List.Pairwise (fun a b => browseLe a b = true) l) :
    List.Pairwise (fun a b => browseLe a b = true) (goInsert x l) := by
  induction l with
  | nil => simp [goInsert]
  | cons y ys ih =>
    unfold goInsert
    split_ifs with hle
    · refine List.Pairwise.cons ?_ h
      intro z hz
      rcases List.mem_cons.mp hz with rfl | hz
      · exact hle
      · exact browseLe_trans _ _ _ hle (List.rel_of_pairwise_cons h hz)
    · have hyx : browseLe y x = true := by
        rcases browseLe_total x y with h' | h'
        · rw [h'] at hle; cases hle rfl
        · exact h'
      refine List.Pairwise.cons ?_ (ih (List.Pairwise.of_cons h))
      intro z hz
      have hz' := (goInsert_perm x ys).mem_iff.mp hz
      rcases List.mem_cons.mp hz' with rfl | hz''
      · exact hyx
      · exact List.rel_of_pairwise_cons h hz''

theorem goStableSort_pairwise (l : List BrowseElement) :
    List.Pairwise (fun a b => browseLe a b = true) (goStableSort l) := by
  induction l with
  | nil => simp [goStableSort]
  | cons x xs ih => exact goInsert_pairwise x _ ih

/-- The stable insertion sort satisfies the `sort.Slice` contract. -/
theorem goStableSort_spec : GoSortSpec goStableSort :=
  fun l => ⟨goStableSort_perm l, goStableSort_pairwise l⟩

/-- The tie-reversing sort also satisfies the `sort.Slice` contract. -/
theorem goAntistableSort_spec : GoSortSpec goAntistableSort := by
  intro l
  refine ⟨(goStableSort_perm l.reverse).trans (List.reverse_perm l), ?_⟩
  exact goStableSort_pairwise l.reverse

theorem browseElemsStep_post
    (descend : GoStr → GoStr → GoStr → Int → Int → BrowseState → BrowseState × Option GoStr)
    (hdesc : ∀ p n ind d maxD st, makeBrowseKey p n ∈ st.visited →
      NodePost (makeBrowseKey p n) st (descend p n ind d maxD st)) :
    ∀ (elems : List BrowseElement) (indent : GoStr) (depth maxDepth : Int) (st : BrowseState),
      ElemsPost st (browseElemsStep descend elems indent depth maxDepth st) := by
  intro elems
  induction elems with
  | nil =>
    intro indent depth maxDepth st
    refine ⟨fun k hk => hk, [], by simp [browseElemsStep], by simp [keysOf], by simp [keysOf]⟩
  | cons el rest ih =>
    intro indent depth maxDepth st
    simp only [browseElemsStep]
    split_ifs with hcond hvis
    · -- has children, in depth range, key already visited: skip descent
      simpa [ElemsPost] using ih indent depth maxDepth
        { st with output := st.output ++ [browseLine indent el] }
    · -- has children, in depth range, key not yet visited: descend
      rcases hd : descend el.itemPath el.itemName (indent ++ gostr "  ") (depth + 1) maxDepth
          { output := st.output ++ [browseLine indent el],
            visited := makeBrowseKey el.itemPath el.itemName :: st.visited,
            expanded := st.expanded } with ⟨st3, e?⟩
      have hkey : makeBrowseKey el.itemPath el.itemName ∈
          ({ output := st.output ++ [browseLine indent el],
             visited := makeBrowseKey el.itemPath el.itemName :: st.visited,
             expanded := st.expanded } : BrowseState).visited := by
        simp
      have hnode := hdesc el.itemPath el.itemName (indent ++ gostr "  ") (depth + 1) maxDepth _ hkey
      rw [hd] at hnode
      obtain ⟨hmono2, Δc, hexpC, hnodupC, hkC⟩ := hnode
      simp only at hmono2 hexpC hkC
      cases e? with
      | some e =>
        simp only [hd]
        refine ⟨?_, Δc, ?_, hnodupC, ?_⟩
        · intro k hk
          exact hmono2 k (List.mem_cons_of_mem _ hk)
        · simpa using hexpC
        · intro k hk
          rcases hkC k hk with ⟨hk1, hk2⟩
          refine ⟨hk1, ?_⟩
          rcases hk2 with hk2 | hk2
          · intro hc
            exact hk2 (List.mem_cons_of_mem _ hc)
          · subst hk2
            exact hvis
      | none =>
        simp only [hd]
        obtain ⟨hmono3, Δr, hexpR, hnodupR, hkR⟩ := ih indent depth maxDepth st3
        refine ⟨?_, Δc ++ Δr, ?_, ?_, ?_⟩
        · intro k hk
          exact hmono3 k (hmono2 k (List.mem_cons_of_mem _ hk))
        · rw [hexpR, hexpC]
          simp
        · rw [keysOf, List.map_append]
          refine List.Nodup.append hnodupC hnodupR ?_
          intro k hkc hkr
          exact (hkR k hkr).2 (hkC k hkc).1
        · intro k hk
          rw [keysOf, List.map_append, List.mem_append] at hk
          rcases hk with hk | hk
          · rcases hkC k hk with ⟨hk1, hk2⟩
            refine ⟨hmono3 k hk1, ?_⟩
            rcases hk2 with hk2 | hk2
            · intro hc
              exact hk2 (List.mem_cons_of_mem _ hc)
            · subst hk2
              exact hvis
          · rcases hkR k hk with ⟨hk1, hk2⟩
            refine ⟨hk1, ?_⟩
            intro hc
            exact hk2 (hmono2 k (List.mem_cons_of_mem _ hc))
    · -- no descent for this element
      simpa [ElemsPost] using ih indent depth maxDepth
        { st with output := st.output ++ [browseLine indent el] }

theorem browseOpcChildrenGo_post (fetchEls : FetchEls)
    (sorter : List BrowseElement → List BrowseElement) :
    ∀ (gas : Nat) (itemPath itemName indent : GoStr) (depth maxDepth : Int) (st : BrowseState),
      makeBrowseKey itemPath itemName ∈ st.visited →
      NodePost (makeBrowseKey itemPath itemName) st
        (browseOpcChildrenGo fetchEls sorter gas itemPath itemName indent depth maxDepth st) := by
  intro gas
  induction gas with
  | zero =>
    intro itemPath itemName indent depth maxDepth st hpre
    simp only [browseOpcChildrenGo]
    cases hf : fetchEls itemPath itemName with
    | error e =>
      refine ⟨fun k hk => hk, [(itemPath, itemName)], by simp, by simp [keysOf], ?_⟩
      intro k hk
      simp only [keysOf, List.map_cons, List.map_nil, List.mem_singleton] at hk
      subst hk
      exact ⟨hpre, Or.inr rfl⟩
    | ok elements =>
      have hdesc : ∀ p n ind d maxD st2, makeBrowseKey p n ∈ st2.visited →
          NodePost (makeBrowseKey p n) st2
            ((fun (_ _ _ : GoStr) (_ _ : Int) (st2 : BrowseState) => (st2, none)) p n ind d maxD st2) := by
        intro p n ind d maxD st2 h2
        exact ⟨fun k hk => hk, [], by simp, by simp [keysOf], by simp [keysOf]⟩
      have he := browseElemsStep_post _ hdesc (sorter elements) indent depth maxDepth
        { st with expanded := st.expanded ++ [(itemPath, itemName)] }
      obtain ⟨hmonoE, ΔE, hexpE, hnodupE, hkE⟩ := he
      simp only at hmonoE hexpE hkE
      refine ⟨hmonoE, (itemPath, itemName) :: ΔE, ?_, ?_, ?_⟩
      · rw [hexpE]
        simp
      · rw [keysOf, List.map_cons]
        refine List.Nodup.cons ?_ hnodupE
        intro hc
        exact (hkE _ hc).2 hpre
      · intro k hk
        rw [keysOf, List.map_cons] at hk
        rcases List.mem_cons.mp hk with rfl | hk
        · exact ⟨hmonoE _ hpre, Or.inr rfl⟩
        · exact ⟨(hkE k hk).1, Or.inl (hkE k hk).2⟩
  | succ gas' ih =>
    intro itemPath itemName indent depth maxDepth st hpre
    simp only [browseOpcChildrenGo]
    cases hf : fetchEls itemPath itemName with
    | error e =>
      refine ⟨fun k hk => hk, [(itemPath, itemName)], by simp, by simp [keysOf], ?_⟩
      intro k hk
      simp only [keysOf, List.map_cons, List.map_nil, List.mem_singleton] at hk
      subst hk
      exact ⟨hpre, Or.inr rfl⟩
    | ok elements =>
      have hdesc : ∀ p n ind d maxD st2, makeBrowseKey p n ∈ st2.visited →
          NodePost (makeBrowseKey p n) st2
            (browseOpcChildrenGo fetchEls sorter gas' p n ind d maxD st2) := by
        intro p n ind d maxD st2 h2
        exact ih p n ind d maxD st2 h2
      have he := browseElemsStep_post _ hdesc (sorter elements) indent depth maxDepth
        { st with expanded := st.expanded ++ [(itemPath, itemName)] }
      obtain ⟨hmonoE, ΔE, hexpE, hnodupE, hkE⟩ := he
      simp only at hmonoE hexpE hkE
      refine ⟨hmonoE, (itemPath, itemName) :: ΔE, ?_, ?_, ?_⟩
      · rw [hexpE]
        simp
      · rw [keysOf, List.map_cons]
        refine List.Nodup.cons ?_ hnodupE
        intro hc
        exact (hkE _ hc).2 hpre
      · intro k hk
        rw [keysOf, List.map_cons] at hk
        rcases List.mem_cons.mp hk with rfl | hk
        · exact ⟨hmonoE _ hpre, Or.inr rfl⟩
        · exact ⟨(hkE k hk).1, Or.inl (hkE k hk).2⟩

/-- Across one whole `BrowseOpcTree` run, the keys of the expanded nodes
are pairwise distinct: no identity has its children fetched twice. -/
theorem BrowseOpcTree_expanded_nodup (fetchEls : FetchEls)
    (sorter : List BrowseElement → List BrowseElement)
    (itemPath itemName : GoStr) (maxDepth : Int) :
    (keysOf (BrowseOpcTree fetchEls sorter itemPath itemName maxDepth).1.expanded).Nodup := by
  by_cases hle : maxDepth ≤ 0
  · simp [BrowseOpcTree, hle, keysOf]
  · have heq : BrowseOpcTree fetchEls sorter itemPath itemName maxDepth =
        browseOpcChildrenGo fetchEls sorter (maxDepth - 1).toNat itemPath itemName
          (gostr "  ") 1 maxDepth
          { output := [if itemName ≠ [] then itemName
              else if itemPath ≠ [] then itemPath else gostr "<root>"],
            visited := [makeBrowseKey itemPath itemName], expanded := [] } := by
      simp [BrowseOpcTree, hle]
    have h := browseOpcChildrenGo_post fetchEls sorter (maxDepth - 1).toNat itemPath itemName
      (gostr "  ") 1 maxDepth
      { output := [if itemName ≠ [] then itemName
          else if itemPath ≠ [] then itemPath else gostr "<root>"],
        visited := [makeBrowseKey itemPath itemName], expanded := [] }
      (by simp)
    obtain ⟨_, Δ, hexp, hnodup, _⟩ := h
    rw [heq, hexp]
    simpa using hnodup

/-- C1: per `Traverse` call, a node identity is expanded at most once.
(1) The keys of the expanded-node trace of any `BrowseOpcTree` run are
pairwise distinct — the VisitedSet is checked and updated strictly before
descending, so children are fetched at most once per identity.
(2) An element whose identity is already in the VisitedSet is still
emitted as a sibling at its depth (its line, with its indent, is
appended) but is never descended into: the loop just moves on.
(3) On a concrete cyclic namespace the traversal terminates, the
back-edge node is printed as a sibling (`    R/`), and the trace expands
identity `R` exactly once. -/
theorem claim_C1 :
    (∀ (fetchEls : FetchEls) (sorter : List BrowseElement → List BrowseElement)
        (itemPath itemName : GoStr) (maxDepth : Int),
      (keysOf (BrowseOpcTree fetchEls sorter itemPath itemName maxDepth).1.expanded).Nodup)
    ∧ (∀ (descend : GoStr → GoStr → GoStr → Int → Int → BrowseState → BrowseState × Option GoStr)
        (el : BrowseElement) (rest : List BrowseElement) (indent : GoStr)
        (depth maxDepth : Int) (st : BrowseState),
      el.hasChildren = true → depth < maxDepth →
      makeBrowseKey el.itemPath el.itemName ∈ st.visited →
      browseElemsStep descend (el :: rest) indent depth maxDepth st =
        browseElemsStep descend rest indent depth maxDepth
          { st with output := st.output ++ [browseLine indent el] })
    ∧ BrowseOpcTree cycFetch goStableSort [] (gostr "R") 5 =
        (⟨[gostr "R", gostr "  B/", gostr "    C", gostr "    R/"],
          [makeBrowseKey [] (gostr "B"), makeBrowseKey [] (gostr "R")],
          [([], gostr "R"), ([], gostr "B")]⟩, none) := by
  refine ⟨?_, ?_, ?_⟩
  · intro fetchEls sorter itemPath itemName maxDepth
    exact BrowseOpcTree_expanded_nodup fetchEls sorter itemPath itemName maxDepth
  · intro descend el rest indent depth maxDepth st hch hdep hvis
    simp only [browseElemsStep]
    rw [if_pos ⟨hch, hdep⟩, if_pos hvis]
  · decide

/-- Witness for C1: the skip-step equation instantiated on the back-edge
element with its key already visited — the sibling line is emitted, no
descent happens. -/
theorem claim_C1_witness :
    browseElemsStep (fun _ _ _ _ _ st => (st, none)) (elR2 :: []) (gostr "  ") 1 5
        ⟨[], [makeBrowseKey [] (gostr "R")], []⟩ =
      browseElemsStep (fun _ _ _ _ _ st => (st, none)) [] (gostr "  ") 1 5
        { (⟨[], [makeBrowseKey [] (gostr "R")], []⟩ : BrowseState) with
          output := ([] : List GoStr) ++ [browseLine (gostr "  ") elR2] } :=
  claim_C1.2.1 (fun _ _ _ _ _ st => (st, none)) elR2 [] (gostr "  ") 1 5
    ⟨[], [makeBrowseKey [] (gostr "R")], []⟩ (by decide) (by decide) (by decide)

/-- C2: the paged fetch merges pages in arrival order.  For any service
that answers the token chain started at `""` with error-free pages whose
intermediate entries report more-elements and a non-empty token and whose
last entry reports no-more or an empty token, `fetchBrowseElements`
issues exactly the chain's tokens, in order, and returns the
concatenation of all pages' element lists. -/
theorem claim_C2 (svc : BrowseSvc) (itemPath itemName : GoStr)
    (pages : List BrowseResponse) (fuel : Nat)
    (hchain : PageChainB svc itemPath itemName [] pages = true)
    (hfuel : pages.length ≤ fuel) :
    fetchBrowseElements svc ctx₀ itemPath itemName fuel =
      ⟨chainTokens [] pages,
        some (.ok ((pages.map BrowseResponse.elements).flatten))⟩ := by
  have := fetchLoop_chain svc itemPath itemName pages fuel 0 [] [] hchain hfuel
  simpa [fetchBrowseElements] using this

/-- Witness for C2: pages with hasMore true,true,false and tokens
`t1`,`t2`,`""` merge to page1 ++ page2 ++ page3, with the three requests
issued for tokens `""`, `t1`, `t2`. -/
theorem claim_C2_witness :
    fetchBrowseElements pagedSvc ctx₀ [] (gostr "N") 3 =
      ⟨chainTokens [] [page1, page2, page3],
        some (.ok (([page1, page2, page3].map BrowseResponse.elements).flatten))⟩ :=
  claim_C2 pagedSvc [] (gostr "N") [page1, page2, page3] 3 (by decide) (by decide)

/-- C4: a page with a non-empty server error list fails the listing
immediately — the single RPC issued, the loop not continued, the result
the aggregate error — and the aggregate message renders entries id+text
when a non-empty id is present, text alone when only the text is
non-empty, and collapses to the literal `unknown error` when no entry
carries any message. -/
theorem claim_C4 :
    (∀ (svc : BrowseSvc) (itemPath itemName : GoStr) (fuel : Nat) (r : BrowseResponse),
      1 ≤ fuel → svc itemPath itemName [] = .ok (some r) → r.errors ≠ [] →
      fetchBrowseElements svc ctx₀ itemPath itemName fuel =
        ⟨[[]], some (.error (gostr "browse: " ++ formatOPCErrors r.errors))⟩)
    ∧ (∀ errs, formatOPCErrors errs = specFormatOPCErrors errs)
    ∧ (∀ errs : List (Option OPCError), (∀ x ∈ errs, specRenderOPCError x = none) →
        formatOPCErrors errs = gostr "unknown error") := by
  refine ⟨?_, formatOPCErrors_eq_spec, ?_⟩
  · intro svc itemPath itemName fuel r hfuel hsvc herr
    cases fuel with
    | zero => omega
    | succ f =>
      simp only [fetchBrowseElements, fetchLoop, ctxFired_ctx₀, hsvc]
      simp [herr]
  · intro errs hall
    rw [formatOPCErrors_eq_spec, specFormatOPCErrors]
    have : errs.filterMap specRenderOPCError = [] := by
      rw [List.filterMap_eq_nil_iff]
      exact hall
    simp [this]

/-- Witness for C4: against `errSvc` the listing stops after the single
initial RPC with the aggregate error, and an error list with no messages
renders as the literal `unknown error`. -/
theorem claim_C4_witness :
    fetchBrowseElements errSvc ctx₀ [] (gostr "N") 1 =
      ⟨[[]], some (.error (gostr "browse: " ++ formatOPCErrors errList))⟩ ∧
    formatOPCErrors [some ⟨none, []⟩, none] = gostr "unknown error" :=
  ⟨claim_C4.1 errSvc [] (gostr "N") 1 ⟨[], false, [], errList⟩
      (by decide) (by decide) (by decide),
    claim_C4.2.2 [some ⟨none, []⟩, none] (by decide)⟩

theorem browseOpcChildrenGo_err (fetchEls : FetchEls)
    (sorter : List BrowseElement → List BrowseElement) (gas : Nat)
    (itemPath itemName indent : GoStr) (depth maxDepth : Int) (st : BrowseState)
    (e : GoStr) (hf : fetchEls itemPath itemName = .error e) :
    (browseOpcChildrenGo fetchEls sorter gas itemPath itemName indent depth maxDepth st).2 =
      some e := by
  cases gas <;> simp [browseOpcChildrenGo, hf]

/-- C9: the cancellation signal is consulted at the start of every page
fetch (modelled from the spec inside the generated `BrowseContext`).
(1) If it has already fired, `fetchBrowseElements` returns the
cancellation error — not a protocol error — and issues no RPC at all.
(2) Whatever the service does, once the signal fires before call `k` the
loop issues at most `k - i` further RPCs from call number `i`.
(3) The whole traversal surfaces the same cancellation error. -/
theorem claim_C9 :
    (∀ (svc : BrowseSvc) (itemPath itemName : GoStr) (fuel : Nat), 1 ≤ fuel →
      fetchBrowseElements svc ctxCancelled itemPath itemName fuel =
        ⟨[], some (.error (gostr "browse: context canceled"))⟩)
    ∧ (∀ (svc : BrowseSvc) (itemPath itemName : GoStr) (k fuel i : Nat) (tok : GoStr)
        (acc : List BrowseElement),
      (fetchLoop svc ⟨some k⟩ itemPath itemName fuel i tok acc).requests.length ≤ k - i)
    ∧ (∀ (svc : BrowseSvc) (sorter : List BrowseElement → List BrowseElement)
        (itemPath itemName : GoStr) (fuel : Nat) (maxDepth : Int),
      1 ≤ fuel → ¬ maxDepth ≤ 0 →
      (BrowseOpcTreeFull svc ctxCancelled fuel sorter itemPath itemName maxDepth).2 =
        some (gostr "browse: context canceled")) := by
  have h1 : ∀ (svc : BrowseSvc) (itemPath itemName : GoStr) (fuel : Nat), 1 ≤ fuel →
      fetchBrowseElements svc ctxCancelled itemPath itemName fuel =
        ⟨[], some (.error (gostr "browse: context canceled"))⟩ := by
    intro svc itemPath itemName fuel hfuel
    cases fuel with
    | zero => omega
    | succ f => simp [fetchBrowseElements, fetchLoop, ctxFired, ctxCancelled]
  refine ⟨h1, ?_, ?_⟩
  · intro svc itemPath itemName k
    intro fuel
    induction fuel with
    | zero => intro i tok acc; simp [fetchLoop]
    | succ f ih =>
      intro i tok acc
      by_cases hf : ctxFired ⟨some k⟩ i
      · simp [fetchLoop, hf]
      · have hik : i < k := by
          simp [ctxFired] at hf
          omega
        simp only [fetchLoop, hf, Bool.false_eq_true, if_false]
        cases hs : svc itemPath itemName tok with
        | error e => simp; omega
        | ok r =>
          cases r with
          | none => simp; omega
          | some resp =>
            by_cases herr : resp.errors ≠ []
            · simp [herr]; omega
            · simp only [herr, if_false]
              by_cases hstop : (resp.moreElements = false ∨ resp.continuationPoint = [])
              · simp [hstop]; omega
              · simp only [hstop, if_false]
                have := ih (i + 1) resp.continuationPoint (acc ++ resp.elements)
                simp only [List.length_cons]
                omega
  · intro svc sorter itemPath itemName fuel maxDepth hfuel hle
    have ha := h1 svc itemPath itemName fuel hfuel
    have hferr : fetchElsOf svc ctxCancelled fuel itemPath itemName =
        .error (gostr "browse: context canceled") := by
      simp [fetchElsOf, ha]
    simp only [BrowseOpcTreeFull, BrowseOpcTree, hle, if_false]
    exact browseOpcChildrenGo_err _ sorter _ itemPath itemName _ 1 maxDepth _ _ hferr

/-- Witness for C9: with the signal already fired, the paged service is
never called and both the fetch and the whole traversal return the
cancellation error. -/
theorem claim_C9_witness :
    fetchBrowseElements pagedSvc ctxCancelled [] (gostr "N") 1 =
        ⟨[], some (.error (gostr "browse: context canceled"))⟩ ∧
      (fetchLoop pagedSvc ⟨some 0⟩ [] (gostr "N") 4 0 [] []).requests.length ≤ 0 - 0 ∧
      (BrowseOpcTreeFull pagedSvc ctxCancelled 1 goStableSort [] (gostr "N") 1).2 =
        some (gostr "browse: context canceled") :=
  ⟨claim_C9.1 pagedSvc [] (gostr "N") 1 (by decide),
    claim_C9.2.1 pagedSvc [] (gostr "N") 0 4 0 [] [],
    claim_C9.2.2 pagedSvc goStableSort [] (gostr "N") 1 1 (by decide) (by decide)⟩

theorem browseElemsStep_no_descend
    (descend : GoStr → GoStr → GoStr → Int → Int → BrowseState → BrowseState × Option GoStr)
    (indent : GoStr) (depth maxDepth : Int) (hd : ¬ depth < maxDepth) :
    ∀ (elems : List BrowseElement) (st : BrowseState),
      browseElemsStep descend elems indent depth maxDepth st =
        ({ st with output := st.output ++ elems.map (browseLine indent) }, none) := by
  intro elems
  induction elems with
  | nil => intro st; simp [browseElemsStep]
  | cons el rest ih =>
    intro st
    have hcond : ¬ (el.hasChildren = true ∧ depth < maxDepth) := fun hc => hd hc.2
    simp only [browseElemsStep, hcond, if_false]
    rw [ih]
    simp

/-- Counterexample to C3 as stated: the code sorts with `sort.Slice`,
which guarantees only a sorted permutation, never stability.  The
tie-reversing sorter fully satisfies that contract, yet emits the two
equal-label siblings in reversed arrival order (`x/` before `x`), while
the stable order the claim asserts would emit `x` before `x/`. -/
theorem claim_C3_counterexample :
    GoSortSpec goAntistableSort ∧
    browseElementName elX1 = browseElementName elX2 ∧
    (BrowseOpcTree tieFetch goAntistableSort [] (gostr "N") 1).1.output =
      [gostr "N", gostr "  x/", gostr "  x"] ∧
    (BrowseOpcTree tieFetch goStableSort [] (gostr "N") 1).1.output =
      [gostr "N", gostr "  x", gostr "  x/"] ∧
    (gostr "  x/" : GoStr) ≠ gostr "  x" :=
  ⟨goAntistableSort_spec, by decide, by decide, by decide, by decide⟩

/-- C3 (amended): for every fetched element list and every sorter
satisfying the `sort.Slice` contract, the siblings are emitted exactly in
the sorter's order — a permutation of the arrivals sorted in code-point
order of the labels (fallback chain name, itemName, itemPath,
placeholder); equal labels may come out in any order (the sort is not
guaranteed stable). -/
theorem claim_C3 (sorter : List BrowseElement → List BrowseElement)
    (hs : GoSortSpec sorter) (fetchEls : FetchEls)
    (itemPath itemName : GoStr) (els : List BrowseElement)
    (hf : fetchEls itemPath itemName = .ok els) :
    (BrowseOpcTree fetchEls sorter itemPath itemName 1).1.output =
        (if itemName ≠ [] then itemName
          else if itemPath ≠ [] then itemPath else gostr "<root>")
          :: (sorter els).map (browseLine (gostr "  "))
      ∧ (sorter els).Perm els
      ∧ List.Pairwise (fun a b => browseLe a b = true) (sorter els) := by
  refine ⟨?_, (hs els).1, (hs els).2⟩
  have hle : ¬ ((1 : Int) ≤ 0) := by omega
  have hnd : ¬ ((1 : Int) < 1) := by omega
  simp only [BrowseOpcTree, hle, if_false]
  cases hg : ((1 : Int) - 1).toNat with
  | zero =>
    simp only [browseOpcChildrenGo, hf]
    rw [browseElemsStep_no_descend _ _ _ _ hnd]
    simp
  | succ g =>
    simp only [browseOpcChildrenGo, hf]
    rw [browseElemsStep_no_descend _ _ _ _ hnd]
    simp

/-- Witness for C3: the stable insertion sort satisfies the contract, and
on the equal-label pair the traversal emits root then the two sorted
lines. -/
theorem claim_C3_witness :
    (BrowseOpcTree tieFetch goStableSort [] (gostr "N") 1).1.output =
        (if gostr "N" ≠ [] then gostr "N"
          else if ([] : GoStr) ≠ [] then [] else gostr "<root>")
          :: (goStableSort [elX1, elX2]).map (browseLine (gostr "  "))
      ∧ (goStableSort [elX1, elX2]).Perm [elX1, elX2]
      ∧ List.Pairwise (fun a b => browseLe a b = true) (goStableSort [elX1, elX2]) :=
  claim_C3 goStableSort goStableSort_spec tieFetch [] (gostr "N") [elX1, elX2] rfl

theorem loggedBodyRead_step (B : Int) (hB : 0 ≤ B) (total chunk : GoStr) :
    loggedBodyRead ⟨B, total.take B.toNat, decide (B.toNat < total.length), (total.length : Int)⟩ chunk =
      ⟨B, (total ++ chunk).take B.toNat, decide (B.toNat < (total ++ chunk).length),
        ((total ++ chunk).length : Int)⟩ := by
  rcases chunk with _ | ⟨c, cs⟩
  · simp [loggedBodyRead]
  · set ch := c :: cs with hch
    have hn : 0 < ch.length := by simp [hch]
    simp only [loggedBodyRead, hn, if_pos]
    have hBn : B.toNat = B := Int.toNat_of_nonneg hB
    have htl : (total.take B.toNat).length = min B.toNat total.length := by
      simp [List.length_take]
    by_cases hfull : B.toNat ≤ total.length
    · -- buffer already at capacity: nothing more is captured
      have hmin : min B.toNat total.length = B.toNat := by omega
      have hrem : ¬ (0 < B - ((total.take B.toNat).length : Int)) := by
        rw [htl, hmin]
        omega
      simp only [hrem, if_false]
      have hbuf : (total ++ ch).take B.toNat = total.take B.toNat := by
        rw [List.take_append_eq_append_take]
        have : B.toNat - total.length = 0 := by omega
        simp [this]
      have htr1 : decide (B.toNat < total.length + ch.length) = true := by
        simp
        omega
      simp [hbuf, List.length_append, htr1]
    · -- room remains in the buffer
      have hmin : min B.toNat total.length = total.length := by omega
      have hrem : (0 < B - ((total.take B.toNat).length : Int)) := by
        rw [htl, hmin]
        omega
      simp only [hrem, if_pos]
      have htk : total.take B.toNat = total := List.take_of_length_le (by omega)
      by_cases hover : (ch.length : Int) > B - ((total.take B.toNat).length : Int)
      · simp only [hover, if_pos]
        rw [htk] at hover
        have hover2 : (ch.length : Int) > B - (total.length : Int) := hover
        have hbuf : (total ++ ch).take B.toNat =
            total.take B.toNat ++ ch.take ((B - ((total.take B.toNat).length : Int)).toNat) := by
          rw [List.take_append_eq_append_take, htk]
          have harg : B.toNat - total.length = (B - (total.length : Int)).toNat := by omega
          rw [harg]
        have htr : decide (B.toNat < (total ++ ch).length) = true := by
          simp only [List.length_append, decide_eq_true_eq]
          omega
        simp [hbuf, htr]
        try omega
      · simp only [hover, if_false]
        have hfit : total.length + ch.length ≤ B.toNat := by
          rw [htl, hmin] at hover
          omega
        have hbuf : (total ++ ch).take B.toNat = total ++ ch := by
          refine List.take_of_length_le ?_
          simp only [List.length_append]
          omega
        have htr0 : decide (B.toNat < total.length) = false := by
          simp only [decide_eq_false_iff_not, not_lt]
          omega
        have htr : decide (B.toNat < (total ++ ch).length) = false := by
          simp only [List.length_append, decide_eq_false_iff_not, not_lt]
          omega
        simp [htk, hbuf, htr0, htr]
        try omega

theorem loggedBodyReadAll_spec (B : Int) (hB : 0 ≤ B) (chunks : List GoStr) :
    loggedBodyReadAll (loggedBodyInit B) chunks =
      ⟨B, chunks.flatten.take B.toNat, decide (B.toNat < chunks.flatten.length),
        (chunks.flatten.length : Int)⟩ := by
  have hgen : ∀ (cs : List GoStr) (total : GoStr),
      List.foldl loggedBodyRead
          ⟨B, total.take B.toNat, decide (B.toNat < total.length), (total.length : Int)⟩ cs =
        ⟨B, (total ++ cs.flatten).take B.toNat,
          decide (B.toNat < (total ++ cs.flatten).length), ((total ++ cs.flatten).length : Int)⟩ := by
    intro cs
    induction cs with
    | nil => intro total; simp
    | cons c cs2 ih =>
      intro total
      rw [List.foldl_cons, loggedBodyRead_step B hB total c, ih (total ++ c)]
      simp
  have h0 := hgen chunks []
  simpa [loggedBodyReadAll, loggedBodyInit] using h0

/-- C5: the capture budget bounds the preview.  (1) For any budget
`B ≥ 0` and any sequence of reads, the `loggedBody` capture buffer never
holds more than `B` bytes.  (2) Any streamed 200000-byte body under the
default 65536-byte budget is captured as exactly its first 65536 bytes
with the truncated flag true.  (3) A 200000-byte buffered body previews
to exactly 65536 bytes with truncation; a 100-byte body previews whole
with the flag false. -/
theorem claim_C5 :
    (∀ (B : Int), 0 ≤ B → ∀ chunks : List GoStr,
      ((loggedBodyReadAll (loggedBodyInit B) chunks).buf.length : Int) ≤ B)
    ∧ (∀ chunks : List GoStr, chunks.flatten.length = 200000 →
      (loggedBodyReadAll (loggedBodyInit MaxDebugBodyBytes) chunks).buf =
          chunks.flatten.take 65536
        ∧ (loggedBodyReadAll (loggedBodyInit MaxDebugBodyBytes) chunks).buf.length = 65536
        ∧ (loggedBodyReadAll (loggedBodyInit MaxDebugBodyBytes) chunks).truncated = true)
    ∧ (∀ body : GoStr, body.length = 200000 →
      bodyPreview body MaxDebugBodyBytes = (body.take 65536, true)
        ∧ (body.take 65536).length = 65536)
    ∧ (∀ body : GoStr, body.length = 100 →
      bodyPreview body MaxDebugBodyBytes = (body, false)) := by
  have hBpos : (0 : Int) ≤ MaxDebugBodyBytes := by decide
  have hBnat : MaxDebugBodyBytes.toNat = 65536 := by decide
  refine ⟨?_, ?_, ?_, ?_⟩
  · intro B hB chunks
    rw [loggedBodyReadAll_spec B hB chunks]
    simp only [List.length_take]
    omega
  · intro chunks hlen
    rw [loggedBodyReadAll_spec MaxDebugBodyBytes hBpos chunks]
    refine ⟨by rw [hBnat], ?_, ?_⟩
    · simp only [List.length_take, hBnat, hlen]
      omega
    · simp only [hBnat, hlen]
      decide
  · intro body hlen
    have h1 : ¬ MaxDebugBodyBytes ≤ 0 := by decide
    have h2 : ¬ ((body.length : Int) ≤ MaxDebugBodyBytes) := by
      rw [hlen]
      decide
    constructor
    · simp only [bodyPreview, h1, h2, if_false, hBnat]
    · simp only [List.length_take, hlen]
      omega
  · intro body hlen
    have h1 : ¬ MaxDebugBodyBytes ≤ 0 := by decide
    have h2 : (body.length : Int) ≤ MaxDebugBodyBytes := by
      rw [hlen]
      decide
    simp only [bodyPreview, h1, h2, if_false, if_true, if_pos]

/-- Witness for C5: a single 70000-byte read against the default budget,
a 200000-byte streamed body, and 200000/100-byte buffered bodies. -/
theorem claim_C5_witness :
    ((loggedBodyReadAll (loggedBodyInit MaxDebugBodyBytes)
        [List.replicate 70000 1]).buf.length : Int) ≤ MaxDebugBodyBytes
    ∧ (loggedBodyReadAll (loggedBodyInit MaxDebugBodyBytes)
        [List.replicate 200000 7]).truncated = true
    ∧ bodyPreview (List.replicate 200000 7) MaxDebugBodyBytes =
        ((List.replicate 200000 7).take 65536, true)
    ∧ bodyPreview (List.replicate 100 3) MaxDebugBodyBytes = (List.replicate 100 3, false) :=
  ⟨claim_C5.1 MaxDebugBodyBytes (by decide) [List.replicate 70000 1],
    (claim_C5.2.1 [List.replicate 200000 7]
      (by simp only [List.flatten_cons, List.flatten_nil, List.append_nil,
        List.length_replicate])).2.2,
    (claim_C5.2.2.1 (List.replicate 200000 7) (by simp only [List.length_replicate])).1,
    claim_C5.2.2.2 (List.replicate 100 3) (by simp only [List.length_replicate])⟩

theorem goToLowerByte_canonByte (u : Bool) (c : Nat) :
    goToLowerByte (canonByte u c) = goToLowerByte c := by
  cases u <;> (simp only [canonByte, goToLowerByte]; split_ifs <;> omega)

theorem goToLower_canonicalCase (s : GoStr) :
    ∀ u, goToLower (canonicalCase u s) = goToLower s := by
  induction s with
  | nil => intro u; rfl
  | cons c rest ih =>
    intro u
    simp only [canonicalCase, goToLower, List.map_cons]
    refine List.cons_eq_cons.mpr ⟨goToLowerByte_canonByte u c, ?_⟩
    exact ih _

theorem canonicalCase_of_lower (t : GoStr) :
    ∀ (k : GoStr) (u : Bool), t.all lowerAlphaHyphen = true → goToLower k = t →
      canonicalCase u k = canonicalCase u t := by
  induction t with
  | nil =>
    intro k u _ hk
    cases k with
    | nil => rfl
    | cons c cs => simp [goToLower] at hk
  | cons b bs ih =>
    intro k u hall hk
    cases k with
    | nil => simp [goToLower] at hk
    | cons c cs =>
      simp only [goToLower, List.map_cons, List.cons.injEq] at hk
      obtain ⟨hb, hrest⟩ := hk
      simp only [List.all_cons, Bool.and_eq_true] at hall
      obtain ⟨hbok, hallrest⟩ := hall
      simp only [lowerAlphaHyphen, Bool.or_eq_true, decide_eq_true_eq] at hbok
      simp only [canonicalCase]
      have hhead : canonByte u c = canonByte u b := by
        unfold goToLowerByte at hb
        rcases hbok with hletter | hhyph
        · have hc : c = b ∨ c = b - 32 := by split_ifs at hb <;> omega
          rcases hc with rfl | rfl
          · rfl
          · cases u <;> (simp only [canonByte]; split_ifs <;> omega)
        · subst hhyph
          have hc : c = 45 := by split_ifs at hb <;> omega
          subst hc
          rfl
      rw [hhead]
      exact List.cons_eq_cons.mpr ⟨rfl, ih cs _ hallrest hrest⟩

theorem valid_of_lower (k : GoStr) :
    ∀ t : GoStr, t.all lowerAlphaHyphen = true → goToLower k = t →
      k.all validHeaderFieldByte = true := by
  induction k with
  | nil => intro t _ _; rfl
  | cons c cs ih =>
    intro t hall hk
    cases t with
    | nil => simp [goToLower] at hk
    | cons b bs =>
      simp only [goToLower, List.map_cons, List.cons.injEq] at hk
      obtain ⟨hb, hrest⟩ := hk
      simp only [List.all_cons, Bool.and_eq_true] at hall ⊢
      obtain ⟨hbok, hallrest⟩ := hall
      refine ⟨?_, ih bs hallrest hrest⟩
      simp only [lowerAlphaHyphen, Bool.or_eq_true, decide_eq_true_eq] at hbok
      unfold goToLowerByte at hb
      unfold validHeaderFieldByte
      simp only [Bool.or_eq_true, decide_eq_true_eq]
      rcases hbok with hletter | hhyph <;> split_ifs at hb <;> omega

theorem canonical_eq_iff_lower (low canon key : GoStr)
    (h1 : low.all lowerAlphaHyphen = true)
    (h2 : canonicalCase true low = canon)
    (h3 : canon.all validHeaderFieldByte = true)
    (h4 : goToLower canon = low) :
    canonicalMIMEHeaderKey key = canon ↔ goToLower key = low := by
  constructor
  · intro h
    unfold canonicalMIMEHeaderKey at h
    split_ifs at h with hv
    · have hlc := goToLower_canonicalCase key true
      rw [h] at hlc
      rw [h4] at hlc
      exact hlc.symm
    · rw [h] at hv
      exact absurd h3 hv
  · intro h
    have hvalid := valid_of_lower key low h1 h
    unfold canonicalMIMEHeaderKey
    rw [if_pos hvalid, canonicalCase_of_lower low key true h1 h, h2]

theorem isSensitiveHeader_iff (key : GoStr) :
    isSensitiveHeader key = true ↔
      goToLower key ∈ [gostr "authorization", gostr "proxy-authorization",
        gostr "cookie", gostr "set-cookie"] := by
  have e1 := canonical_eq_iff_lower (gostr "authorization") (gostr "Authorization") key
    (by decide) (by decide) (by decide) (by decide)
  have e2 := canonical_eq_iff_lower (gostr "proxy-authorization")
    (gostr "Proxy-Authorization") key (by decide) (by decide) (by decide) (by decide)
  have e3 := canonical_eq_iff_lower (gostr "cookie") (gostr "Cookie") key
    (by decide) (by decide) (by decide) (by decide)
  have e4 := canonical_eq_iff_lower (gostr "set-cookie") (gostr "Set-Cookie") key
    (by decide) (by decide) (by decide) (by decide)
  simp only [isSensitiveHeader, Bool.or_eq_true, decide_eq_true_eq, List.mem_cons,
    List.not_mem_nil, or_false]
  rw [e1, e2, e3, e4]
  tauto

/-- C6: header redaction.  (1) `redactHeaders` maps every entry to
itself, except that entries with a sensitive name get the single literal
`<redacted>` value.  (2) A name is sensitive exactly when it equals
authorization, proxy-authorization, cookie or set-cookie up to ASCII
case.  (3) Hence every entry of the redacted output with a sensitive
name carries only `<redacted>` (the original secret is gone), and every
other entry is carried over verbatim. -/
theorem claim_C6 :
    (∀ headers : List (GoStr × List GoStr),
      redactHeaders headers = headers.map fun kv =>
        if isSensitiveHeader kv.1 then (kv.1, [gostr "<redacted>"]) else kv)
    ∧ (∀ key : GoStr, isSensitiveHeader key = true ↔
        goToLower key ∈ [gostr "authorization", gostr "proxy-authorization",
          gostr "cookie", gostr "set-cookie"])
    ∧ (∀ (headers : List (GoStr × List GoStr)) (key : GoStr) (values : List GoStr),
        (key, values) ∈ redactHeaders headers →
          (isSensitiveHeader key = true → values = [gostr "<redacted>"])
          ∧ (isSensitiveHeader key = false → (key, values) ∈ headers)) := by
  refine ⟨?_, isSensitiveHeader_iff, ?_⟩
  · intro headers
    induction headers with
    | nil => rfl
    | cons kv rest ih =>
      rcases kv with ⟨k, v⟩
      simp only [redactHeaders, List.map_cons]
      by_cases hs : isSensitiveHeader k <;> simp [hs, ih]
  · intro headers
    induction headers with
    | nil => intro key values h; simp [redactHeaders] at h
    | cons kv rest ih =>
      rcases kv with ⟨k, v⟩
      intro key values h
      simp only [redactHeaders] at h
      by_cases hs : isSensitiveHeader k
      · rw [if_pos hs] at h
        rcases List.mem_cons.mp h with heq | htail
        · rcases Prod.mk.injEq .. ▸ heq with ⟨rfl, rfl⟩
          exact ⟨fun _ => rfl, fun hf => absurd hs (by simp [hf])⟩
        · obtain ⟨ht1, ht2⟩ := ih key values htail
          exact ⟨ht1, fun hf => List.mem_cons_of_mem _ (ht2 hf)⟩
      · rw [if_neg hs] at h
        rcases List.mem_cons.mp h with heq | htail
        · rcases Prod.mk.injEq .. ▸ heq with ⟨rfl, rfl⟩
          refine ⟨fun ht => absurd ht (by simpa using hs), fun _ => List.mem_cons_self _ _⟩
        · obtain ⟨ht1, ht2⟩ := ih key values htail
          exact ⟨ht1, fun hf => List.mem_cons_of_mem _ (ht2 hf)⟩

/-- Witness for C6: a mixed-case spelling of Authorization is redacted to
the literal marker, the other header is copied verbatim. -/
theorem claim_C6_witness :
    isSensitiveHeader (gostr "aUtHoRiZaTiOn") = true ∧
    redactHeaders [(gostr "aUtHoRiZaTiOn", [gostr "secret"]), (gostr "X-Token", [gostr "keep"])] =
      [(gostr "aUtHoRiZaTiOn", [gostr "<redacted>"]), (gostr "X-Token", [gostr "keep"])] :=
  ⟨(claim_C6.2.1 (gostr "aUtHoRiZaTiOn")).mpr (by decide),
    by rw [claim_C6.1]; decide⟩

/-- C8: every listed textual form of the zero date-time — `Z`-suffixed,
bare (no zone marker), and with an explicit `+00:00` offset — parses to
the zero time value with no error.  The first two collapse through the
sentinel special case; the third parses to the zero instant directly. -/
theorem claim_C8 :
    parseXsdDateTime (gostr "0001-01-01T00:00:00Z") = .ok (0, true)
    ∧ parseXsdDateTime (gostr "0001-01-01T00:00:00") = .ok (0, true)
    ∧ parseXsdDateTime (gostr "0001-01-01T00:00:00+00:00") = .ok (0, true) :=
  ⟨by decide, by decide, by decide⟩

theorem splitFirstT_append (s : GoStr) :
    ∀ (value a b : GoStr), splitFirstT value = some (a, b) →
      splitFirstT (value ++ s) = some (a, b ++ s) := by
  intro value
  induction value with
  | nil => intro a b h; simp [splitFirstT] at h
  | cons c rest ih =>
    intro a b h
    by_cases hc : c = 84
    · subst hc
      simp only [splitFirstT, if_pos rfl, Option.some.injEq, Prod.mk.injEq] at h
      rcases h with ⟨rfl, rfl⟩
      simp [splitFirstT]
    · simp only [splitFirstT, if_neg hc] at h
      rcases hsp : splitFirstT rest with _ | ⟨a2, b2⟩ <;> rw [hsp] at h
      · simp at h
      · simp only [Option.map_some', Option.some.injEq, Prod.mk.injEq] at h
        rcases h with ⟨rfl, rfl⟩
        simp [List.cons_append, splitFirstT, hc, ih a2 b2 hsp]

theorem splitFirstT_isSome (value : GoStr) (h : (84 : Nat) ∈ value) :
    ∃ p, splitFirstT value = some p := by
  induction value with
  | nil => simp at h
  | cons c rest ih =>
    by_cases hc : c = 84
    · subst hc
      exact ⟨([], rest), by simp [splitFirstT]⟩
    · have hmem : (84 : Nat) ∈ rest := by
        rcases List.mem_cons.mp h with heq | hmem
        · exact absurd heq.symm hc
        · exact hmem
      obtain ⟨p, hp⟩ := ih hmem
      exact ⟨(c :: p.1, p.2), by simp [splitFirstT, hc, hp]⟩

theorem timeSegOf_append_z (value : GoStr) (h : (84 : Nat) ∈ value) :
    timeSegOf (value ++ [90]) = timeSegOf value ++ [90] := by
  obtain ⟨⟨a, b⟩, hp⟩ := splitFirstT_isSome value h
  rw [timeSegOf, timeSegOf, hp, splitFirstT_append [90] value a b hp]
  rfl

/-- C7 (amended): for a text containing `T` whose time segment has no
`Z`, `+` or `-`, and which is not the bare zero-date sentinel
`0001-01-01T00:00:00`, parsing the text equals parsing the `Z`-suffixed
text except that the zone flag is reported false instead of true — in
particular `2020-01-01T00:00:00` and `2020-01-01T00:00:00Z` parse to the
same instant with flags false and true.  (The sentinel must be excluded:
its special case reports the flag true.) -/
theorem claim_C7 (value : GoStr)
    (hT : (84 : Nat) ∈ value)
    (hZ : (90 : Nat) ∉ timeSegOf value) (hP : (43 : Nat) ∉ timeSegOf value)
    (hM : (45 : Nat) ∉ timeSegOf value)
    (hsent : value ≠ gostr "0001-01-01T00:00:00") :
    parseXsdDateTime value =
        Except.map (fun p => (p.1, false)) (parseXsdDateTime (value ++ [90]))
      ∧ (∀ (t : GoTime) (b : Bool), parseXsdDateTime (value ++ [90]) = .ok (t, b) → b = true)
      ∧ (∃ t0 : GoTime,
          parseXsdDateTime (gostr "2020-01-01T00:00:00") = .ok (t0, false)
          ∧ parseXsdDateTime (gostr "2020-01-01T00:00:00Z") = .ok (t0, true)) := by
  have hne : value ≠ [] := by
    intro h
    subst h
    simp at hT
  have hne2 : value ++ [90] ≠ [] := by simp
  have hT2 : (84 : Nat) ∈ value ++ [90] := List.mem_append_left _ hT
  have hseg2 : timeSegOf (value ++ [90]) = timeSegOf value ++ [90] :=
    timeSegOf_append_z value hT
  have hZ2 : (90 : Nat) ∈ timeSegOf (value ++ [90]) := by
    rw [hseg2]
    exact List.mem_append_right _ (by simp)
  have hsentZ : ¬ (value ++ [90] = gostr "0001-01-01T00:00:00Z") := by
    have hdec : gostr "0001-01-01T00:00:00Z" = gostr "0001-01-01T00:00:00" ++ [90] := by
      decide
    rw [hdec, List.append_left_inj]
    exact hsent
  have d1 : decide ((90 : Nat) ∈ timeSegOf value) = false := decide_eq_false hZ
  have d2 : decide ((43 : Nat) ∈ timeSegOf value) = false := decide_eq_false hP
  have d3 : decide ((45 : Nat) ∈ timeSegOf value) = false := decide_eq_false hM
  have d4 : decide ((90 : Nat) ∈ timeSegOf (value ++ [90])) = true := decide_eq_true hZ2
  have hlhs : parseXsdDateTime value =
      (match timeParseRFC3339Nano (value ++ [90]) with
        | some t => .ok (t, false)
        | none => .error (value ++ [90])) := by
    simp only [parseXsdDateTime, if_neg hne, if_pos hT, d1, d2, d3, Bool.or_self,
      Bool.false_or]
    simp [hsentZ]
  have hrhs : parseXsdDateTime (value ++ [90]) =
      (match timeParseRFC3339Nano (value ++ [90]) with
        | some t => .ok (t, true)
        | none => .error (value ++ [90])) := by
    simp only [parseXsdDateTime, if_neg hne2, if_pos hT2, d4, Bool.true_or]
    simp [hsentZ]
  refine ⟨?_, ?_, ?_⟩
  · rw [hlhs, hrhs]
    rcases timeParseRFC3339Nano (value ++ [90]) with _ | t <;> rfl
  · intro t b hb
    rw [hrhs] at hb
    rcases htp : timeParseRFC3339Nano (value ++ [90]) with _ | t2 <;> rw [htp] at hb
    · cases hb
    · simp only [Except.ok.injEq, Prod.mk.injEq] at hb
      exact hb.2.symm
  · exact ⟨63713433600000000000, by decide, by decide⟩

/-- Counterexample to C7 as stated: the bare zero-date sentinel
`0001-01-01T00:00:00` contains `T`, its time segment has none of `Z`,
`+`, `-`, yet parsing reports the explicit-zone flag true (the sentinel
special case), never false as the claim demands. -/
theorem claim_C7_counterexample :
    ((84 : Nat) ∈ gostr "0001-01-01T00:00:00"
      ∧ (90 : Nat) ∉ timeSegOf (gostr "0001-01-01T00:00:00")
      ∧ (43 : Nat) ∉ timeSegOf (gostr "0001-01-01T00:00:00")
      ∧ (45 : Nat) ∉ timeSegOf (gostr "0001-01-01T00:00:00"))
    ∧ parseXsdDateTime (gostr "0001-01-01T00:00:00") = .ok (0, true)
    ∧ ¬ ∃ t : GoTime, parseXsdDateTime (gostr "0001-01-01T00:00:00") = .ok (t, false) := by
  refine ⟨by decide, by decide, ?_⟩
  rintro ⟨t, ht⟩
  rw [show parseXsdDateTime (gostr "0001-01-01T00:00:00") = .ok (0, true) from by decide] at ht
  simp at ht

/-- Witness for C7: the amended equation instantiated at
`2020-01-01T00:00:00`. -/
theorem claim_C7_witness :
    parseXsdDateTime (gostr "2020-01-01T00:00:00") =
      Except.map (fun p => (p.1, false))
        (parseXsdDateTime (gostr "2020-01-01T00:00:00" ++ [90])) :=
  (claim_C7 (gostr "2020-01-01T00:00:00") (by decide) (by decide) (by decide)
    (by decide) (by decide)).1

/-- C10: the VisitedSet key is injective exactly on NUL-free item paths.
For paths without the byte 0, equal keys force equal (path, name) pairs;
with a NUL in a path, two distinct identities collide, e.g.
`("a\x00b","c")` and `("a","b\x00c")`. -/
theorem claim_C10 :
    (∀ p1 n1 p2 n2 : GoStr, (0 : Nat) ∉ p1 → (0 : Nat) ∉ p2 →
      (makeBrowseKey p1 n1 = makeBrowseKey p2 n2 ↔ p1 = p2 ∧ n1 = n2))
    ∧ makeBrowseKey (gostr "a" ++ [0] ++ gostr "b") (gostr "c") =
        makeBrowseKey (gostr "a") (gostr "b" ++ [0] ++ gostr "c")
    ∧ (gostr "a" ++ [0] ++ gostr "b", gostr "c") ≠ (gostr "a", gostr "b" ++ [0] ++ gostr "c") := by
  refine ⟨?_, by decide, by decide⟩
  intro p1 n1 p2 n2 h1 h2
  constructor
  · exact makeBrowseKey_inj p1 n1 p2 n2 h1 h2
  · rintro ⟨rfl, rfl⟩
    rfl

/-- Witness for C10: the equivalence instantiated at NUL-free pairs. -/
theorem claim_C10_witness :
    makeBrowseKey (gostr "a") (gostr "b") = makeBrowseKey (gostr "aa") (gostr "b") ↔
      gostr "a" = gostr "aa" ∧ gostr "b" = gostr "b" :=
  claim_C10.1 (gostr "a") (gostr "b") (gostr "aa") (gostr "b") (by decide) (by decide)
